import Mathlib

/-!
Verification of the 1-satoshi ordinal inscription scanner.

The development shallowly embeds the envelope-detection state machine of
src/lib/src/inscribe.rs together with the data model it populates, and
settles the stated properties against that embedding.  Byte sequences are
lists of naturals, 64-bit keys are unbounded integers (the code only
compares keys and tests parity with modulus 2, where the truncated
remainder of the source language and the Euclidean remainder used here
agree on the zero test), and the external script codec is modelled by the
capabilities it exposes on a decoded operation.
-/

namespace OneSat

/-- Byte sequences (the Bytes values attached to fields). -/
abbrev Bytes := List Nat

/-- Transaction hashes are opaque identifiers supplied by the external
transaction model; only their identity matters to the scanner. -/
abbrev TxHash := Nat

/-- P2PKH addresses are opaque; the scanner never constructs one. -/
abbrev Address := Nat

/-- An Outpoint identifies a specific output: transaction hash and output
index. -/
structure Outpoint where
  tx_hash : TxHash
  index : Nat
deriving DecidableEq, Repr

/-- One decoded script operation, modelled by the capability interface the
scanner consumes from the external codec: equality-up-to-alias with
OP_FALSE, equality with OP_IF and with OP_ENDIF, the data-push test, the
pushed byte payload when there is one, and the minimal small-integer value
when there is one. -/
structure Operation where
  eq_alias_op_false : Bool
  is_op_if : Bool
  is_op_endif : Bool
  is_data_push : Bool
  data_pushed : Option Bytes
  small_num_pushed : Option Int
deriving DecidableEq, Repr

/-- The entry list of a BTreeMap from i64 keys to byte values, kept sorted
by key; insertion overwrites an existing entry with the same key. -/
structure BMap where
  entries : List (Int × Bytes)
deriving DecidableEq, Repr

/-- Sorted-insert into the entry list, overwriting an equal key. -/
def insertEntries : List (Int × Bytes) → Int → Bytes → List (Int × Bytes)
  | [], k, v => [(k, v)]
  | (k0, v0) :: rest, k, v =>
    if k < k0 then (k, v) :: (k0, v0) :: rest
    else if k = k0 then (k, v) :: rest
    else (k0, v0) :: insertEntries rest k v

/-- BTreeMap.insert. -/
def BMap.insert (m : BMap) (k : Int) (v : Bytes) : BMap :=
  ⟨insertEntries m.entries k v⟩

/-- BTreeMap.new. -/
def BMap.empty : BMap := ⟨[]⟩

/-- The keys of a map, in entry order. -/
def BMap.keys (m : BMap) : List Int := m.entries.map Prod.fst

/-- An OrdinalInscription is token data stored on-chain: the record
populated by the envelope scanner (struct OrdinalInscription of
inscribe.rs). -/
structure OrdinalInscription where
  id : Outpoint
  prev_id : Option Outpoint
  new_address : Option Address
  must_be_creation : Bool
  creation_data : BMap
  metadata : BMap
deriving DecidableEq, Repr

/-- The states of the envelope-detection machine (enum State inside
scan_output). -/
inductive State
  | Initial
  | OpFalseSeen
  | OpIfSeen
  | InEnvelope
  | GotKey
  | GotBody
deriving DecidableEq, Repr

/-- The mutable locals of the scan loop: current state, the two field
maps, and the pending key. -/
structure Cfg where
  state : State
  creation_data : BMap
  metadata : BMap
  key : Int
deriving DecidableEq, Repr

/-- The locals as initialised just before the loop. -/
def Cfg.init : Cfg := ⟨State.Initial, BMap.empty, BMap.empty, 0⟩

/-- The ASCII bytes of the magic string matched after OP_IF. -/
def ordMagic : Bytes := [111, 114, 100]

/-- Outcome of one loop iteration: continue with updated locals, return
a populated record (the early return in GotBody), or return none for the
whole output (the question-mark operator in GotKey). -/
inductive StepRes
  | cont (c : Cfg)
  | found (r : OrdinalInscription)
  | abort
deriving DecidableEq, Repr

/-- One iteration of the scan loop of scan_output on one operation. -/
def step (tx_id : TxHash) (index : Nat) (c : Cfg) (op : Operation) : StepRes :=
  match c.state with
  | State.Initial =>
    if op.eq_alias_op_false then StepRes.cont { c with state := State.OpFalseSeen }
    else StepRes.cont c
  | State.OpFalseSeen =>
    if op.is_op_if then StepRes.cont { c with state := State.OpIfSeen }
    else StepRes.cont { c with state := State.Initial }
  | State.OpIfSeen =>
    match op.data_pushed with
    | none => StepRes.cont { c with state := State.Initial }
    | some d =>
      if d.length ≠ 3 then StepRes.cont { c with state := State.Initial }
      else if d = ordMagic then
        StepRes.cont ⟨State.InEnvelope, BMap.empty, BMap.empty, 0⟩
      else StepRes.cont { c with state := State.Initial }
  | State.InEnvelope =>
    if op.is_data_push then
      match op.small_num_pushed with
      | some v => StepRes.cont { c with state := State.GotKey, key := v }
      | none => StepRes.cont { c with state := State.Initial }
    else StepRes.cont { c with state := State.Initial }
  | State.GotKey =>
    if op.is_data_push then
      match op.data_pushed with
      | none => StepRes.abort
      | some d =>
        let c1 :=
          if c.key % 2 = 0 then { c with metadata := c.metadata.insert c.key d }
          else { c with creation_data := c.creation_data.insert c.key d }
        if c.key = 0 then StepRes.cont { c1 with state := State.GotBody }
        else StepRes.cont { c1 with state := State.InEnvelope }
    else StepRes.cont { c with state := State.Initial }
  | State.GotBody =>
    if op.is_op_endif then
      StepRes.found
        { id := ⟨tx_id, index⟩
          prev_id := none
          new_address := none
          must_be_creation := false
          creation_data := c.creation_data
          metadata := c.metadata }
    else StepRes.cont { c with state := State.Initial }

/-- Outcome of running the loop over a list of operations: an early exit
with a definite answer, or the locals left when the list is exhausted. -/
inductive RunRes
  | done (r : Option OrdinalInscription)
  | more (c : Cfg)
deriving DecidableEq, Repr

/-- The scan loop of scan_output over the decoded operations. -/
def runOps (tx_id : TxHash) (index : Nat) : List Operation → Cfg → RunRes
  | [], c => RunRes.more c
  | op :: ops, c =>
    match step tx_id index c op with
    | StepRes.cont c1 => runOps tx_id index ops c1
    | StepRes.found r => RunRes.done (some r)
    | StepRes.abort => RunRes.done none

/-- The body of scan_output after a successful script decode: run the loop
from the initial locals; exhausting the operations yields none. -/
def scanOps (tx_id : TxHash) (index : Nat) (ops : List Operation) :
    Option OrdinalInscription :=
  match runOps tx_id index ops Cfg.init with
  | RunRes.done r => r
  | RunRes.more _ => none

/-- A locking script, modelled by the outcome of the external decoder on
it: an ordered operation sequence plus trailing bytes, or a decode
failure. -/
inductive Script
  | wellFormed (ops : List Operation) (trailing : Bytes)
  | malformed (code : Nat)
deriving DecidableEq, Repr

/-- The external script decoder. -/
def Script.decode : Script → Except Nat (List Operation × Bytes)
  | Script.wellFormed ops trailing => Except.ok (ops, trailing)
  | Script.malformed code => Except.error code

/-- A transaction output: value in satoshis and locking script. -/
structure TxOutput where
  value : Nat
  script : Script
deriving DecidableEq, Repr

/-- A transaction: its hash (supplied by the external model) and its
ordered outputs. -/
structure Tx where
  hash : TxHash
  outputs : List TxOutput
deriving DecidableEq, Repr

/-- The library error type (enum OrdinalError of result.rs). -/
inductive OrdinalError
  | BadArgument (s : String)
deriving DecidableEq, Repr

/-- Standard Result used in the library. -/
abbrev OrdinalResult (T : Type) := Except OrdinalError T

/-- OrdinalInscription.scan_output: gate on the one-satoshi value, decode
the script (a decode failure is ignored), and run the envelope machine. -/
def scan_output (txo : TxOutput) (tx_id : TxHash) (index : Nat) :
    Option OrdinalInscription :=
  if txo.value ≠ 1 then none
  else
    match txo.script.decode with
    | Except.ok (ops, _) => scanOps tx_id index ops
    | Except.error _ => none

/-- The output loop of scan_tx: scan each output with its index, keeping
the matches in order. -/
def scanTxAux (h : TxHash) : List TxOutput → Nat → List OrdinalInscription
  | [], _ => []
  | o :: os, index =>
    match scan_output o h index with
    | none => scanTxAux h os (index + 1)
    | some i => i :: scanTxAux h os (index + 1)

/-- OrdinalInscription.scan_tx: scan every output of the transaction. -/
def scan_tx (tx : Tx) : OrdinalResult (List OrdinalInscription) :=
  Except.ok (scanTxAux tx.hash tx.outputs 0)

/-- The canonical logical-false operation (OP_0, alias OP_FALSE): it
pushes the empty byte sequence and the small integer 0. -/
def opFalse : Operation := ⟨true, false, false, true, some [], some 0⟩

/-- The OP_IF control operation. -/
def opIf : Operation := ⟨false, true, false, false, none, none⟩

/-- The OP_ENDIF control operation. -/
def opEndIf : Operation := ⟨false, false, true, false, none, none⟩

/-- A plain data push of the given payload. -/
def opPush (d : Bytes) : Operation := ⟨false, false, false, true, some d, none⟩

/-- A minimal small-integer push of the given value; for 0 this is OP_0
itself, hence an alias of OP_FALSE. -/
def opNum (k : Int) : Operation :=
  ⟨decide (k = 0), false, false, true,
    some (if k = 0 then [] else [k.natAbs % 256]), some k⟩

/-- An operation that passes the data-push test but yields no byte
payload, as the small-integer opcodes of a codec that reserves the
payload accessor for genuine pushdata operations. -/
def opNumBare (k : Int) : Operation := ⟨false, false, false, true, none, some k⟩

/-- The property of being a minimal small-integer push of key value k, as
the InEnvelope state tests it. -/
def IsKeyPush (op : Operation) (k : Int) : Prop :=
  op.is_data_push = true ∧ op.small_num_pushed = some k

/-- The property of being a data push yielding payload d, as the GotKey
state consumes it. -/
def IsValuePush (op : Operation) (d : Bytes) : Prop :=
  op.is_data_push = true ∧ op.data_pushed = some d

/-- An operation list that encodes a run of key/value pairs with nonzero
keys: each key is a minimal small-integer push and each value a data
push. -/
inductive PairOps : List Operation → List (Int × Bytes) → Prop
  | nil : PairOps [] []
  | cons {kop vop : Operation} {k : Int} {d : Bytes}
      {ops : List Operation} {pairs : List (Int × Bytes)} :
      IsKeyPush kop k → IsValuePush vop d → k ≠ 0 → PairOps ops pairs →
      PairOps (kop :: vop :: ops) ((k, d) :: pairs)

/-- An operation list that is one well-formed envelope: a logical-false
push, OP_IF, a 3-byte push of the magic string, key/value pairs with
nonzero keys, the terminating pair with key 0 carrying the body, and
OP_ENDIF. -/
inductive EnvelopeOps : List Operation → List (Int × Bytes) → Bytes → Prop
  | mk {fOp iOp ordOp k0Op bOp eOp : Operation}
      {mid : List Operation} {pairs : List (Int × Bytes)} {body : Bytes} :
      fOp.eq_alias_op_false = true →
      iOp.is_op_if = true →
      ordOp.data_pushed = some ordMagic →
      PairOps mid pairs →
      IsKeyPush k0Op 0 →
      IsValuePush bOp body →
      eOp.is_op_endif = true →
      EnvelopeOps (fOp :: iOp :: ordOp :: (mid ++ [k0Op, bOp, eOp])) pairs body

/-- The canonical encoding of a pair list as operations. -/
def pairOps : List (Int × Bytes) → List Operation
  | [] => []
  | (k, d) :: rest => opNum k :: opPush d :: pairOps rest

/-- The canonical encoding of a whole envelope as operations. -/
def envelopeOps (pairs : List (Int × Bytes)) (body : Bytes) : List Operation :=
  opFalse :: opIf :: opPush ordMagic :: (pairOps pairs ++ [opNum 0, opPush body, opEndIf])

/-- Accumulate the odd-keyed pairs of a consumed pair list into a map, in
order, exactly as the GotKey state routes them. -/
def foldOdd (c : BMap) : List (Int × Bytes) → BMap
  | [] => c
  | (k, d) :: rest => foldOdd (if k % 2 = 0 then c else c.insert k d) rest

/-- Accumulate the even-keyed pairs of a consumed pair list into a map, in
order, exactly as the GotKey state routes them. -/
def foldEven (m : BMap) : List (Int × Bytes) → BMap
  | [] => m
  | (k, d) :: rest => foldEven (if k % 2 = 0 then m.insert k d else m) rest

/-- The creation field map the specification prescribes for a well-formed
envelope: the odd-keyed consumed pairs. -/
def specCreation (pairs : List (Int × Bytes)) : BMap :=
  foldOdd BMap.empty pairs

/-- The metadata field map the specification prescribes for a well-formed
envelope: the even-keyed consumed pairs, the final key-0 body included. -/
def specMetadata (pairs : List (Int × Bytes)) (body : Bytes) : BMap :=
  (foldEven BMap.empty pairs).insert 0 body

/-- The record a well-formed envelope is specified to produce. -/
def specRecord (h : TxHash) (i : Nat) (pairs : List (Int × Bytes)) (body : Bytes) :
    OrdinalInscription :=
  { id := ⟨h, i⟩
    prev_id := none
    new_address := none
    must_be_creation := false
    creation_data := specCreation pairs
    metadata := specMetadata pairs body }

/-- The pending key left after consuming a pair list (the key of the last
pair, or the starting key when the list is empty). -/
def keyFold (k : Int) : List (Int × Bytes) → Int
  | [] => k
  | (k1, _) :: rest => keyFold k1 rest

lemma runOps_append (h : TxHash) (i : Nat) (xs ys : List Operation) (c : Cfg) :
    runOps h i (xs ++ ys) c =
      match runOps h i xs c with
      | RunRes.more c1 => runOps h i ys c1
      | RunRes.done r => RunRes.done r := by
  induction xs generalizing c with
  | nil => simp [runOps]
  | cons op xs ih =>
    cases hs : step h i c op with
    | cont c1 => simp [runOps, hs, ih]
    | found r => simp [runOps, hs]
    | abort => simp [runOps, hs]

lemma runOps_pairs (h : TxHash) (i : Nat) {mid : List Operation}
    {pairs : List (Int × Bytes)} (hp : PairOps mid pairs) :
    ∀ (c m : BMap) (k : Int) (rest : List Operation),
    runOps h i (mid ++ rest) ⟨State.InEnvelope, c, m, k⟩ =
      runOps h i rest ⟨State.InEnvelope, foldOdd c pairs, foldEven m pairs, keyFold k pairs⟩ := by
  induction hp with
  | nil =>
    intro c m k rest
    simp [foldOdd, foldEven, keyFold]
  | cons hk hv hne hp ih =>
    rename_i kop vop k1 d ops1 pairs1
    intro c m k rest
    obtain ⟨hk1, hk2⟩ := hk
    obtain ⟨hv1, hv2⟩ := hv
    by_cases hpar : k1 % 2 = 0
    · simp [runOps, step, hk1, hk2, hv1, hv2, hne, hpar, foldOdd, foldEven, keyFold]
      exact ih c (m.insert k1 d) k1 rest
    · simp [runOps, step, hk1, hk2, hv1, hv2, hne, hpar, foldOdd, foldEven, keyFold]
      exact ih (c.insert k1 d) m k1 rest

lemma runOps_envelope (h : TxHash) (i : Nat) {ops : List Operation}
    {pairs : List (Int × Bytes)} {body : Bytes} (he : EnvelopeOps ops pairs body)
    (c m : BMap) (k : Int) (rest : List Operation) :
    runOps h i (ops ++ rest) ⟨State.Initial, c, m, k⟩ =
      RunRes.done (some (specRecord h i pairs body)) := by
  cases he with
  | mk hf hif hord hmid hk0 hb hend =>
    rename_i fOp iOp ordOp k0Op bOp eOp mid
    obtain ⟨hk01, hk02⟩ := hk0
    obtain ⟨hb1, hb2⟩ := hb
    simp [runOps, step, hf, hif, hord, ordMagic]
    rw [runOps_pairs h i hmid]
    simp [runOps, step, hk01, hk02, hb1, hb2, hend,
      specRecord, specCreation, specMetadata, ordMagic]

lemma insertEntries_mem {l : List (Int × Bytes)} {k : Int} {v : Bytes} {p : Int × Bytes}
    (hp : p ∈ insertEntries l k v) : p = (k, v) ∨ p ∈ l := by
  induction l with
  | nil => simpa [insertEntries] using hp
  | cons q l ih =>
    obtain ⟨k0, v0⟩ := q
    simp only [List.mem_cons]
    by_cases h1 : k < k0
    · simp only [insertEntries, if_pos h1, List.mem_cons] at hp
      tauto
    · by_cases h2 : k = k0
      · simp only [insertEntries, if_neg h1, if_pos h2, List.mem_cons] at hp
        tauto
      · simp only [insertEntries, if_neg h1, if_neg h2, List.mem_cons] at hp
        rcases hp with hp | hp
        · tauto
        · rcases ih hp with hp | hp <;> tauto

lemma self_mem_insertEntries (l : List (Int × Bytes)) (k : Int) (v : Bytes) :
    (k, v) ∈ insertEntries l k v := by
  induction l with
  | nil => simp [insertEntries]
  | cons q l ih =>
    obtain ⟨k0, v0⟩ := q
    by_cases h1 : k < k0
    · simp [insertEntries, h1]
    · by_cases h2 : k = k0
      · simp [insertEntries, h1, h2]
      · simp [insertEntries, h1, h2, ih]

lemma BMap.mem_keys_insert {m : BMap} {k k1 : Int} {v : Bytes}
    (h : k1 ∈ (m.insert k v).keys) : k1 = k ∨ k1 ∈ m.keys := by
  simp only [BMap.keys, BMap.insert, List.mem_map] at h ⊢
  obtain ⟨p, hp, hk1⟩ := h
  rcases insertEntries_mem hp with hp1 | hp1
  · subst hp1
    exact Or.inl hk1.symm
  · exact Or.inr ⟨p, hp1, hk1⟩

lemma BMap.self_mem_keys_insert (m : BMap) (k : Int) (v : Bytes) :
    k ∈ (m.insert k v).keys := by
  simp only [BMap.keys, BMap.insert, List.mem_map]
  exact ⟨(k, v), self_mem_insertEntries m.entries k v, rfl⟩

/-- The parity discipline of the two field maps: only odd keys in the
creation map, only even keys in the metadata map. -/
def GoodMaps (cd md : BMap) : Prop :=
  (∀ k1 ∈ cd.keys, ¬ k1 % 2 = 0) ∧ (∀ k1 ∈ md.keys, k1 % 2 = 0)

/-- Loop invariant of the scan: the maps obey the parity discipline, and
in the GotBody state the metadata map already holds key 0. -/
def CfgInv (c : Cfg) : Prop :=
  GoodMaps c.creation_data c.metadata ∧
    (c.state = State.GotBody → 0 ∈ c.metadata.keys)

lemma cfgInv_init : CfgInv Cfg.init := by
  simp [CfgInv, GoodMaps, Cfg.init, BMap.empty, BMap.keys]

lemma step_inv (h : TxHash) (i : Nat) (c : Cfg) (op : Operation) (hc : CfgInv c) :
    (∀ c1, step h i c op = StepRes.cont c1 → CfgInv c1) ∧
    (∀ r, step h i c op = StepRes.found r →
      r.id = ⟨h, i⟩ ∧ GoodMaps r.creation_data r.metadata ∧ 0 ∈ r.metadata.keys) := by
  obtain ⟨⟨hodd, heven⟩, hbody⟩ := hc
  obtain ⟨s, cd, md, key⟩ := c
  cases s with
  | Initial =>
    constructor
    · intro c1 h1
      simp only [step] at h1
      split at h1 <;> (cases h1; exact ⟨⟨hodd, heven⟩, by simp⟩)
    · intro r h1
      simp only [step] at h1
      split at h1 <;> cases h1
  | OpFalseSeen =>
    constructor
    · intro c1 h1
      simp only [step] at h1
      split at h1 <;> (cases h1; exact ⟨⟨hodd, heven⟩, by simp⟩)
    · intro r h1
      simp only [step] at h1
      split at h1 <;> cases h1
  | OpIfSeen =>
    constructor
    · intro c1 h1
      simp only [step] at h1
      split at h1
      · cases h1
        exact ⟨⟨hodd, heven⟩, by simp⟩
      · split at h1 <;> [skip; split at h1] <;>
          (cases h1; first
            | exact ⟨⟨hodd, heven⟩, by simp⟩
            | exact ⟨⟨by simp [BMap.empty, BMap.keys], by simp [BMap.empty, BMap.keys]⟩, by simp⟩)
    · intro r h1
      simp only [step] at h1
      split at h1
      · cases h1
      · split at h1 <;> [skip; split at h1] <;> cases h1
  | InEnvelope =>
    constructor
    · intro c1 h1
      simp only [step] at h1
      split at h1
      · split at h1 <;> (cases h1; exact ⟨⟨hodd, heven⟩, by simp⟩)
      · cases h1
        exact ⟨⟨hodd, heven⟩, by simp⟩
    · intro r h1
      simp only [step] at h1
      split at h1
      · split at h1 <;> cases h1
      · cases h1
  | GotKey =>
    constructor
    · intro c1 h1
      simp only [step] at h1
      split at h1
      · split at h1
        · cases h1
        · rename_i d hd
          by_cases hpar : key % 2 = 0
          · simp only [if_pos hpar] at h1
            by_cases hz : key = 0
            · simp only [if_pos hz] at h1
              cases h1
              refine ⟨⟨hodd, ?_⟩, ?_⟩
              · intro k1 hk1
                rcases BMap.mem_keys_insert hk1 with hk1 | hk1
                · subst hk1; exact hpar
                · exact heven k1 hk1
              · intro _
                subst hz
                exact BMap.self_mem_keys_insert md 0 d
            · simp only [if_neg hz] at h1
              cases h1
              refine ⟨⟨hodd, ?_⟩, by simp⟩
              intro k1 hk1
              rcases BMap.mem_keys_insert hk1 with hk1 | hk1
              · subst hk1; exact hpar
              · exact heven k1 hk1
          · simp only [if_neg hpar] at h1
            have hz : ¬ key = 0 := by
              intro hz
              exact hpar (by simp [hz])
            simp only [if_neg hz] at h1
            cases h1
            refine ⟨⟨?_, heven⟩, by simp⟩
            intro k1 hk1
            rcases BMap.mem_keys_insert hk1 with hk1 | hk1
            · subst hk1; exact hpar
            · exact hodd k1 hk1
      · cases h1
        exact ⟨⟨hodd, heven⟩, by simp⟩
    · intro r h1
      simp only [step] at h1
      split at h1
      · split at h1
        · cases h1
        · split at h1 <;> split at h1 <;> cases h1
      · cases h1
  | GotBody =>
    constructor
    · intro c1 h1
      simp only [step] at h1
      split at h1
      · cases h1
      · cases h1
        exact ⟨⟨hodd, heven⟩, by simp⟩
    · intro r h1
      simp only [step] at h1
      split at h1
      · cases h1
        exact ⟨rfl, ⟨hodd, heven⟩, hbody rfl⟩
      · cases h1

lemma runOps_inv (h : TxHash) (i : Nat) :
    ∀ (ops : List Operation) (c : Cfg), CfgInv c →
    ∀ r, runOps h i ops c = RunRes.done (some r) →
    r.id = ⟨h, i⟩ ∧ GoodMaps r.creation_data r.metadata ∧ 0 ∈ r.metadata.keys := by
  intro ops
  induction ops with
  | nil =>
    intro c hc r hr
    simp [runOps] at hr
  | cons op ops ih =>
    intro c hc r hr
    rw [runOps] at hr
    cases hs : step h i c op with
    | cont c1 =>
      rw [hs] at hr
      exact ih c1 ((step_inv h i c op hc).1 c1 hs) r hr
    | found r1 =>
      rw [hs] at hr
      cases hr
      exact (step_inv h i c op hc).2 r hs
    | abort =>
      rw [hs] at hr
      cases hr

lemma scan_output_some_inv {txo : TxOutput} {h : TxHash} {i : Nat} {r : OrdinalInscription}
    (hr : scan_output txo h i = some r) :
    r.id = ⟨h, i⟩ ∧ GoodMaps r.creation_data r.metadata ∧ 0 ∈ r.metadata.keys := by
  unfold scan_output at hr
  split at hr
  · cases hr
  · cases hdec : txo.script.decode with
    | ok p =>
      obtain ⟨ops, tr⟩ := p
      cases hrun : runOps h i ops Cfg.init with
      | done r1 =>
        simp only [hdec] at hr
        unfold scanOps at hr
        simp only [hrun] at hr
        subst hr
        exact runOps_inv h i ops Cfg.init cfgInv_init r hrun
      | more c1 =>
        simp only [hdec] at hr
        unfold scanOps at hr
        simp only [hrun] at hr
        exact Option.noConfusion hr
    | error e =>
      simp only [hdec] at hr
      exact Option.noConfusion hr

lemma scanTxAux_eq_filterMap (h : TxHash) :
    ∀ (os : List TxOutput) (i : Nat),
    scanTxAux h os i = (os.enumFrom i).filterMap (fun p => scan_output p.2 h p.1) := by
  intro os
  induction os with
  | nil =>
    intro i
    simp [scanTxAux]
  | cons o os ih =>
    intro i
    rw [scanTxAux]
    cases hs : scan_output o h i with
    | none => simp [List.enumFrom, hs, ih]
    | some r => simp [List.enumFrom, hs, ih]

lemma mem_scanTxAux (h : TxHash) :
    ∀ (os : List TxOutput) (i : Nat) (r : OrdinalInscription),
    r ∈ scanTxAux h os i ↔
      ∃ (d : Nat) (o : TxOutput), os.get? d = some o ∧ scan_output o h (i + d) = some r := by
  intro os
  induction os with
  | nil =>
    intro i r
    simp [scanTxAux]
  | cons o os ih =>
    intro i r
    rw [scanTxAux]
    cases hs : scan_output o h i with
    | none =>
      rw [ih]
      constructor
      · rintro ⟨d, o1, hget, hscan⟩
        refine ⟨d + 1, o1, by simpa using hget, ?_⟩
        have harith : i + (d + 1) = i + 1 + d := by omega
        rw [harith]
        exact hscan
      · rintro ⟨d, o1, hget, hscan⟩
        cases d with
        | zero =>
          simp only [List.get?_cons_zero, Option.some.injEq] at hget
          subst hget
          simp only [Nat.add_zero] at hscan
          rw [hs] at hscan
          exact Option.noConfusion hscan
        | succ d =>
          refine ⟨d, o1, by simpa using hget, ?_⟩
          have harith : i + 1 + d = i + (d + 1) := by omega
          rw [harith]
          exact hscan
    | some r0 =>
      simp only [List.mem_cons]
      rw [ih]
      constructor
      · rintro (hr | ⟨d, o1, hget, hscan⟩)
        · subst hr
          exact ⟨0, o, by simp, by simpa using hs⟩
        · refine ⟨d + 1, o1, by simpa using hget, ?_⟩
          have harith : i + (d + 1) = i + 1 + d := by omega
          rw [harith]
          exact hscan
      · rintro ⟨d, o1, hget, hscan⟩
        cases d with
        | zero =>
          simp only [List.get?_cons_zero, Option.some.injEq] at hget
          subst hget
          simp only [Nat.add_zero] at hscan
          rw [hs] at hscan
          exact Or.inl (Option.some.inj hscan).symm
        | succ d =>
          refine Or.inr ⟨d, o1, by simpa using hget, ?_⟩
          have harith : i + 1 + d = i + (d + 1) := by omega
          rw [harith]
          exact hscan

lemma scanTxAux_index_lb (h : TxHash) (os : List TxOutput) (i : Nat)
    (r : OrdinalInscription) (hr : r ∈ scanTxAux h os i) : i ≤ r.id.index := by
  rw [mem_scanTxAux] at hr
  obtain ⟨d, o, hget, hscan⟩ := hr
  have hid := (scan_output_some_inv hscan).1
  rw [hid]
  simp

lemma scanTxAux_pairwise (h : TxHash) :
    ∀ (os : List TxOutput) (i : Nat),
    (scanTxAux h os i).Pairwise (fun a b => a.id.index < b.id.index) := by
  intro os
  induction os with
  | nil =>
    intro i
    simp [scanTxAux]
  | cons o os ih =>
    intro i
    rw [scanTxAux]
    cases hs : scan_output o h i with
    | none => exact ih (i + 1)
    | some r =>
      refine List.Pairwise.cons ?_ (ih (i + 1))
      intro b hb
      have h1 := (scan_output_some_inv hs).1
      have h2 := scanTxAux_index_lb h os (i + 1) b hb
      rw [h1]
      simpa using h2

/-- Ghost instrumentation: the key/value pairs consumed so far by the
current envelope attempt.  The list is cleared exactly where the step
clears the field maps (the magic-string match) and extended exactly where
the step inserts into a field map (a value consumed in GotKey). -/
def traceStep (c : Cfg) (op : Operation) (tr : List (Int × Bytes)) :
    List (Int × Bytes) :=
  match c.state with
  | State.OpIfSeen =>
    match op.data_pushed with
    | none => tr
    | some d => if d.length ≠ 3 then tr else if d = ordMagic then [] else tr
  | State.GotKey =>
    if op.is_data_push then
      match op.data_pushed with
      | none => tr
      | some d => tr ++ [(c.key, d)]
    else tr
  | _ => tr

/-- Outcome of the instrumented loop. -/
inductive RunResT
  | done (r : Option (OrdinalInscription × List (Int × Bytes)))
  | more (c : Cfg) (tr : List (Int × Bytes))
deriving DecidableEq, Repr

/-- The scan loop together with its consumed-pair trace. -/
def runOpsT (tx_id : TxHash) (index : Nat) :
    List Operation → Cfg → List (Int × Bytes) → RunResT
  | [], c, tr => RunResT.more c tr
  | op :: ops, c, tr =>
    match step tx_id index c op with
    | StepRes.cont c1 => runOpsT tx_id index ops c1 (traceStep c op tr)
    | StepRes.found r => RunResT.done (some (r, tr))
    | StepRes.abort => RunResT.done none

/-- The instrumented scan of one operation sequence. -/
def scanOpsT (tx_id : TxHash) (index : Nat) (ops : List Operation) :
    Option (OrdinalInscription × List (Int × Bytes)) :=
  match runOpsT tx_id index ops Cfg.init [] with
  | RunResT.done r => r
  | RunResT.more _ _ => none

/-- Forgetting the trace. -/
def stripT : RunResT → RunRes
  | RunResT.done none => RunRes.done none
  | RunResT.done (some (r, _)) => RunRes.done (some r)
  | RunResT.more c _ => RunRes.more c

lemma runOpsT_strip (h : TxHash) (i : Nat) :
    ∀ (ops : List Operation) (c : Cfg) (tr : List (Int × Bytes)),
    stripT (runOpsT h i ops c tr) = runOps h i ops c := by
  intro ops
  induction ops with
  | nil =>
    intro c tr
    simp [runOpsT, runOps, stripT]
  | cons op ops ih =>
    intro c tr
    rw [runOpsT, runOps]
    cases hs : step h i c op with
    | cont c1 => exact ih c1 (traceStep c op tr)
    | found r => simp [stripT]
    | abort => simp [stripT]

lemma scanOpsT_agrees (h : TxHash) (i : Nat) (ops : List Operation) :
    Option.map Prod.fst (scanOpsT h i ops) = scanOps h i ops := by
  unfold scanOpsT scanOps
  have hstrip := runOpsT_strip h i ops Cfg.init []
  cases ht : runOpsT h i ops Cfg.init [] with
  | done r =>
    rw [ht] at hstrip
    rw [← hstrip]
    cases r with
    | none => simp [stripT]
    | some p => cases p; simp [stripT]
  | more c1 tr =>
    rw [ht] at hstrip
    rw [← hstrip]
    simp [stripT]

lemma foldOdd_snoc :
    ∀ (tr : List (Int × Bytes)) (m : BMap) (k : Int) (d : Bytes),
    foldOdd m (tr ++ [(k, d)]) =
      if k % 2 = 0 then foldOdd m tr else (foldOdd m tr).insert k d := by
  intro tr
  induction tr with
  | nil =>
    intro m k d
    by_cases hk : k % 2 = 0 <;> simp [foldOdd, hk]
  | cons q tr ih =>
    intro m k d
    obtain ⟨k1, d1⟩ := q
    simp only [List.cons_append, foldOdd]
    exact ih _ k d

lemma foldEven_snoc :
    ∀ (tr : List (Int × Bytes)) (m : BMap) (k : Int) (d : Bytes),
    foldEven m (tr ++ [(k, d)]) =
      if k % 2 = 0 then (foldEven m tr).insert k d else foldEven m tr := by
  intro tr
  induction tr with
  | nil =>
    intro m k d
    by_cases hk : k % 2 = 0 <;> simp [foldEven, hk]
  | cons q tr ih =>
    intro m k d
    obtain ⟨k1, d1⟩ := q
    simp only [List.cons_append, foldEven]
    exact ih _ k d

/-- Invariant of the instrumented loop: the field maps are exactly the
parity-routed accumulation of the trace; inside the envelope the trace
has no key 0 yet; in GotBody the trace ends with the key-0 pair and holds
key 0 nowhere else. -/
def TraceInv (c : Cfg) (tr : List (Int × Bytes)) : Prop :=
  c.creation_data = foldOdd BMap.empty tr ∧
  c.metadata = foldEven BMap.empty tr ∧
  ((c.state = State.InEnvelope ∨ c.state = State.GotKey) → 0 ∉ tr.map Prod.fst) ∧
  (c.state = State.GotBody → ∃ tr0 d0, tr = tr0 ++ [(0, d0)] ∧ 0 ∉ tr0.map Prod.fst)

lemma traceInv_init : TraceInv Cfg.init [] := by
  simp [TraceInv, Cfg.init, foldOdd, foldEven]

lemma stepT_inv (h : TxHash) (i : Nat) (c : Cfg) (op : Operation)
    (tr : List (Int × Bytes)) (hc : TraceInv c tr) :
    (∀ c1, step h i c op = StepRes.cont c1 → TraceInv c1 (traceStep c op tr)) ∧
    (∀ r, step h i c op = StepRes.found r →
      r.creation_data = foldOdd BMap.empty tr ∧
      r.metadata = foldEven BMap.empty tr ∧
      ∃ tr0 d0, tr = tr0 ++ [(0, d0)] ∧ 0 ∉ tr0.map Prod.fst) := by
  obtain ⟨hcd, hmd, henv, hbody⟩ := hc
  obtain ⟨s, cd, md, key⟩ := c
  simp only at hcd hmd henv hbody
  cases s with
  | Initial =>
    refine ⟨?_, ?_⟩
    · intro c1 h1
      simp only [step] at h1
      split at h1 <;>
        (cases h1; exact ⟨hcd, hmd, by simp, by simp⟩)
    · intro r h1
      simp only [step] at h1
      split at h1 <;> cases h1
  | OpFalseSeen =>
    refine ⟨?_, ?_⟩
    · intro c1 h1
      simp only [step] at h1
      split at h1 <;>
        (cases h1; exact ⟨hcd, hmd, by simp, by simp⟩)
    · intro r h1
      simp only [step] at h1
      split at h1 <;> cases h1
  | OpIfSeen =>
    refine ⟨?_, ?_⟩
    · intro c1 h1
      cases hdp : op.data_pushed with
      | none =>
        simp only [step, hdp] at h1
        cases h1
        have htr : traceStep ⟨State.OpIfSeen, cd, md, key⟩ op tr = tr := by
          simp [traceStep, hdp]
        rw [htr]
        exact ⟨hcd, hmd, by simp, by simp⟩
      | some d =>
        simp only [step, hdp] at h1
        by_cases hlen : d.length ≠ 3
        · rw [if_pos hlen] at h1
          cases h1
          have htr : traceStep ⟨State.OpIfSeen, cd, md, key⟩ op tr = tr := by
            simp [traceStep, hdp, hlen]
          rw [htr]
          exact ⟨hcd, hmd, by simp, by simp⟩
        · rw [if_neg hlen] at h1
          by_cases hd : d = ordMagic
          · rw [if_pos hd] at h1
            cases h1
            have htr : traceStep ⟨State.OpIfSeen, cd, md, key⟩ op tr = [] := by
              simp [traceStep, hdp, hd, ordMagic]
            rw [htr]
            exact ⟨by simp [foldOdd], by simp [foldEven], by simp, by simp⟩
          · rw [if_neg hd] at h1
            cases h1
            have htr : traceStep ⟨State.OpIfSeen, cd, md, key⟩ op tr = tr := by
              simp [traceStep, hdp, hlen, hd]
            rw [htr]
            exact ⟨hcd, hmd, by simp, by simp⟩
    · intro r h1
      cases hdp : op.data_pushed with
      | none =>
        simp only [step, hdp] at h1
        cases h1
      | some d =>
        simp only [step, hdp] at h1
        by_cases hlen : d.length ≠ 3
        · rw [if_pos hlen] at h1
          cases h1
        · rw [if_neg hlen] at h1
          by_cases hd : d = ordMagic
          · rw [if_pos hd] at h1
            cases h1
          · rw [if_neg hd] at h1
            cases h1
  | InEnvelope =>
    have htr : traceStep ⟨State.InEnvelope, cd, md, key⟩ op tr = tr := rfl
    refine ⟨?_, ?_⟩
    · intro c1 h1
      rw [htr]
      by_cases hip : op.is_data_push = true
      · cases hsn : op.small_num_pushed with
        | none =>
          simp only [step, hip, if_true, hsn] at h1
          cases h1
          exact ⟨hcd, hmd, by simp, by simp⟩
        | some v =>
          simp only [step, hip, if_true, hsn] at h1
          cases h1
          refine ⟨hcd, hmd, ?_, by simp⟩
          intro _
          exact henv (Or.inl rfl)
      · have hip2 : op.is_data_push = false := by
          cases hb : op.is_data_push
          · rfl
          · exact absurd hb hip
        simp only [step, hip2, Bool.false_eq_true, if_false] at h1
        cases h1
        exact ⟨hcd, hmd, by simp, by simp⟩
    · intro r h1
      simp only [step] at h1
      split at h1
      · split at h1 <;> cases h1
      · cases h1
  | GotKey =>
    refine ⟨?_, ?_⟩
    · intro c1 h1
      by_cases hip : op.is_data_push = true
      · cases hdp : op.data_pushed with
        | none =>
          simp only [step, hip, if_true, hdp] at h1
          cases h1
        | some d =>
          simp only [step, hip, if_true, hdp] at h1
          have h0tr : 0 ∉ tr.map Prod.fst := henv (Or.inr rfl)
          have htr : traceStep ⟨State.GotKey, cd, md, key⟩ op tr = tr ++ [(key, d)] := by
            simp [traceStep, hip, hdp]
          rw [htr]
          by_cases hpar : key % 2 = 0
          · rw [if_pos hpar] at h1
            by_cases hz : key = 0
            · rw [if_pos hz] at h1
              cases h1
              subst hz
              refine ⟨?_, ?_, by simp, ?_⟩
              · rw [foldOdd_snoc, if_pos hpar, hcd]
              · rw [foldEven_snoc, if_pos hpar, hmd]
              · intro _
                exact ⟨tr, d, rfl, h0tr⟩
            · rw [if_neg hz] at h1
              cases h1
              refine ⟨?_, ?_, ?_, by simp⟩
              · rw [foldOdd_snoc, if_pos hpar, hcd]
              · rw [foldEven_snoc, if_pos hpar, hmd]
              · intro _
                simp only [List.map_append, List.mem_append]
                intro hmem
                rcases hmem with hmem | hmem
                · exact h0tr hmem
                · simp at hmem
                  exact hz hmem.symm
          · rw [if_neg hpar] at h1
            have hz : ¬ key = 0 := by
              intro hz
              exact hpar (by simp [hz])
            rw [if_neg hz] at h1
            cases h1
            refine ⟨?_, ?_, ?_, by simp⟩
            · rw [foldOdd_snoc, if_neg hpar, hcd]
            · rw [foldEven_snoc, if_neg hpar, hmd]
            · intro _
              simp only [List.map_append, List.mem_append]
              intro hmem
              rcases hmem with hmem | hmem
              · exact h0tr hmem
              · simp at hmem
                exact hz hmem.symm
      · have hip2 : op.is_data_push = false := by
          cases hb : op.is_data_push
          · rfl
          · exact absurd hb hip
        simp only [step, hip2, Bool.false_eq_true, if_false] at h1
        cases h1
        have htr : traceStep ⟨State.GotKey, cd, md, key⟩ op tr = tr := by
          simp [traceStep, hip2]
        rw [htr]
        exact ⟨hcd, hmd, by simp, by simp⟩
    · intro r h1
      simp only [step] at h1
      split at h1
      · split at h1
        · cases h1
        · split at h1 <;> split at h1 <;> cases h1
      · cases h1
  | GotBody =>
    have htr : traceStep ⟨State.GotBody, cd, md, key⟩ op tr = tr := rfl
    refine ⟨?_, ?_⟩
    · intro c1 h1
      rw [htr]
      simp only [step] at h1
      split at h1
      · cases h1
      · cases h1
        exact ⟨hcd, hmd, by simp, by simp⟩
    · intro r h1
      simp only [step] at h1
      split at h1
      · cases h1
        exact ⟨hcd, hmd, hbody rfl⟩
      · cases h1


lemma runOpsT_inv (h : TxHash) (i : Nat) :
    ∀ (ops : List Operation) (c : Cfg) (tr : List (Int × Bytes)), TraceInv c tr →
    ∀ (r : OrdinalInscription) (rtr : List (Int × Bytes)),
    runOpsT h i ops c tr = RunResT.done (some (r, rtr)) →
    r.creation_data = foldOdd BMap.empty rtr ∧
    r.metadata = foldEven BMap.empty rtr ∧
    ∃ tr0 d0, rtr = tr0 ++ [(0, d0)] ∧ 0 ∉ tr0.map Prod.fst := by
  intro ops
  induction ops with
  | nil =>
    intro c tr hc r rtr hr
    simp [runOpsT] at hr
  | cons op ops ih =>
    intro c tr hc r rtr hr
    rw [runOpsT] at hr
    cases hs : step h i c op with
    | cont c1 =>
      rw [hs] at hr
      exact ih c1 (traceStep c op tr) ((stepT_inv h i c op tr hc).1 c1 hs) r rtr hr
    | found r1 =>
      rw [hs] at hr
      cases hr
      exact (stepT_inv h i c op tr hc).2 r hs
    | abort =>
      rw [hs] at hr
      cases hr

lemma scanOpsT_some_inv {h : TxHash} {i : Nat} {ops : List Operation}
    {r : OrdinalInscription} {tr : List (Int × Bytes)}
    (hr : scanOpsT h i ops = some (r, tr)) :
    r.creation_data = foldOdd BMap.empty tr ∧
    r.metadata = foldEven BMap.empty tr ∧
    ∃ tr0 d0, tr = tr0 ++ [(0, d0)] ∧ 0 ∉ tr0.map Prod.fst := by
  unfold scanOpsT at hr
  cases ht : runOpsT h i ops Cfg.init [] with
  | done r1 =>
    rw [ht] at hr
    subst hr
    exact runOpsT_inv h i ops Cfg.init [] traceInv_init r tr ht
  | more c1 tr1 =>
    rw [ht] at hr
    exact Option.noConfusion hr

lemma scanOps_of_scanOpsT {h : TxHash} {i : Nat} {ops : List Operation}
    {r : OrdinalInscription} {tr : List (Int × Bytes)}
    (hr : scanOpsT h i ops = some (r, tr)) : scanOps h i ops = some r := by
  have hagree := scanOpsT_agrees h i ops
  rw [hr] at hagree
  simpa using hagree.symm

/-- Claim C1: a one-satoshi output whose script decodes to a well-formed
envelope (logical-false push, if, 3-byte push of the ASCII magic, zero or
more small-integer key pushes each followed by a data-push value, ending
with the key-0 pair, then endif) — possibly followed by further
operations — yields a record whose id is the supplied hash and index and
whose field maps are exactly the consumed key/value pairs split by key
parity: even keys, key 0 included, in metadata; odd keys in
creation_data. -/
theorem scan_output_well_formed_envelope (h : TxHash) (i : Nat)
    (ops rest : List Operation) (pairs : List (Int × Bytes)) (body : Bytes)
    (trailing : Bytes) (he : EnvelopeOps ops pairs body) :
    scan_output ⟨1, Script.wellFormed (ops ++ rest) trailing⟩ h i =
      some (specRecord h i pairs body) := by
  have hrun := runOps_envelope h i he BMap.empty BMap.empty 0 rest
  simp [scan_output, Script.decode, scanOps, Cfg.init, hrun]

/-- Witness for C1: a concrete envelope with one odd-keyed pair and the
key-0 body, nothing after it. -/
theorem scan_output_well_formed_envelope_witness :
    scan_output ⟨1, Script.wellFormed (envelopeOps [(1, [97])] [98] ++ []) []⟩ 7 3 =
      some (specRecord 7 3 [(1, [97])] [98]) :=
  scan_output_well_formed_envelope 7 3 (envelopeOps [(1, [97])] [98]) [] [(1, [97])] [98] []
    (EnvelopeOps.mk (by decide) (by decide) (by decide)
      (PairOps.cons ⟨by decide, by decide⟩ ⟨by decide, by decide⟩ (by decide) PairOps.nil)
      ⟨by decide, by decide⟩ ⟨by decide, by decide⟩ (by decide))

/-- Claim C2: scan_tx returns ok of exactly the some-results of
scan_output applied to the outputs in ascending index order; the returned
id.index values are strictly increasing and are exactly the indices at
which scan_output independently matches. -/
theorem scan_tx_enumerates_outputs (tx : Tx) :
    ∃ l, scan_tx tx = Except.ok l ∧
      l = (tx.outputs.enumFrom 0).filterMap (fun p => scan_output p.2 tx.hash p.1) ∧
      (l.map fun r => r.id.index).Pairwise (· < ·) ∧
      (∀ j : Nat, (∃ r ∈ l, r.id.index = j) ↔
        ∃ o, tx.outputs.get? j = some o ∧ (scan_output o tx.hash j).isSome = true) := by
  refine ⟨scanTxAux tx.hash tx.outputs 0, rfl,
    scanTxAux_eq_filterMap tx.hash tx.outputs 0, ?_, ?_⟩
  · rw [List.pairwise_map]
    exact scanTxAux_pairwise tx.hash tx.outputs 0
  · intro j
    constructor
    · rintro ⟨r, hr, hj⟩
      rw [mem_scanTxAux] at hr
      obtain ⟨d, o, hget, hscan⟩ := hr
      have hid := (scan_output_some_inv hscan).1
      have hdj : d = j := by
        rw [hid] at hj
        simpa using hj
      subst hdj
      refine ⟨o, hget, ?_⟩
      simp only [Nat.zero_add] at hscan
      simp [hscan]
    · rintro ⟨o, hget, hsome⟩
      obtain ⟨r, hr⟩ := Option.isSome_iff_exists.mp hsome
      refine ⟨r, ?_, ?_⟩
      · rw [mem_scanTxAux]
        exact ⟨j, o, hget, by simpa using hr⟩
      · have hid := (scan_output_some_inv hr).1
        rw [hid]

/-- Claim C3: an output whose value is not one satoshi never yields a
record, and the outcome does not depend on the script at all. -/
theorem scan_output_value_gate (txo : TxOutput) (h : TxHash) (i : Nat)
    (hv : txo.value ≠ 1) :
    scan_output txo h i = none ∧
    ∀ s : Script, scan_output ⟨txo.value, s⟩ h i = none := by
  constructor
  · simp [scan_output, hv]
  · intro s
    simp [scan_output, hv]

/-- Witness for C3: a two-satoshi output carrying a valid envelope is
ignored, whatever the script (decodable or malformed). -/
theorem scan_output_value_gate_witness :
    scan_output ⟨2, Script.wellFormed (envelopeOps [] [7]) []⟩ 0 0 = none ∧
    scan_output ⟨2, Script.malformed 0⟩ 0 0 = none :=
  ⟨(scan_output_value_gate ⟨2, Script.wellFormed (envelopeOps [] [7]) []⟩ 0 0 (by decide)).1,
   (scan_output_value_gate ⟨2, Script.wellFormed (envelopeOps [] [7]) []⟩ 0 0
      (by decide)).2 (Script.malformed 0)⟩

/-- Claim C4: scan_tx always returns ok; an output whose script fails to
decode contributes no record, and the output loop continues past any
non-matching output. -/
theorem scan_tx_never_errors (tx : Tx) (v code : Nat) (h : TxHash) (i : Nat)
    (o : TxOutput) (os : List TxOutput) (ho : scan_output o h i = none) :
    (∃ l, scan_tx tx = Except.ok l) ∧
    scan_output ⟨v, Script.malformed code⟩ h i = none ∧
    scanTxAux h (o :: os) i = scanTxAux h os (i + 1) := by
  refine ⟨⟨scanTxAux tx.hash tx.outputs 0, rfl⟩, ?_, ?_⟩
  · unfold scan_output
    split
    · rfl
    · rfl
  · rw [scanTxAux, ho]

/-- Witness for C4 on a transaction with one undecodable one-satoshi
output. -/
theorem scan_tx_never_errors_witness :
    (∃ l, scan_tx ⟨5, [⟨1, Script.malformed 3⟩]⟩ = Except.ok l) ∧
    scan_output ⟨1, Script.malformed 3⟩ 5 0 = none ∧
    scanTxAux 5 [⟨1, Script.malformed 3⟩] 0 = scanTxAux 5 [] 1 :=
  scan_tx_never_errors ⟨5, [⟨1, Script.malformed 3⟩]⟩ 1 3 5 0
    ⟨1, Script.malformed 3⟩ [] (by decide)

/-- Claim C5: every record scan_output produces has only odd keys in
creation_data, only even keys in metadata, and key 0 present in
metadata. -/
theorem scan_output_key_parity (txo : TxOutput) (h : TxHash) (i : Nat)
    (r : OrdinalInscription) (hr : scan_output txo h i = some r) :
    (∀ k ∈ r.creation_data.keys, Odd k) ∧
    (∀ k ∈ r.metadata.keys, Even k) ∧
    0 ∈ r.metadata.keys := by
  obtain ⟨hid, ⟨hodd, heven⟩, h0⟩ := scan_output_some_inv hr
  refine ⟨?_, ?_, h0⟩
  · intro k hk
    have hm := hodd k hk
    rw [Int.odd_iff]
    omega
  · intro k hk
    rw [Int.even_iff]
    exact heven k hk

/-- Witness for C5 at a concrete record with one odd key and the key-0
body. -/
theorem scan_output_key_parity_witness :
    (∀ k ∈ (BMap.mk [((1 : Int), [97])]).keys, Odd k) ∧
    (∀ k ∈ (BMap.mk [((0 : Int), [98])]).keys, Even k) ∧
    (0 : Int) ∈ (BMap.mk [((0 : Int), [98])]).keys :=
  scan_output_key_parity ⟨1, Script.wellFormed (envelopeOps [(1, [97])] [98]) []⟩ 0 0
    ⟨⟨0, 0⟩, none, none, false, ⟨[(1, [97])]⟩, ⟨[(0, [98])]⟩⟩ (by decide)

/-- Claim C6: in state GotBody an endif returns the populated record at
once — the remaining operations are not consumed, so of two complete
envelopes in one script only the first is reported, with its fields taken
from the first envelope alone. -/
theorem got_body_endif_stops (h : TxHash) (i : Nat) (c : Cfg) (op : Operation)
    (rest : List Operation) (hs : c.state = State.GotBody)
    (he : op.is_op_endif = true)
    (ops1 ops2 : List Operation) (pairs1 pairs2 : List (Int × Bytes))
    (body1 body2 : Bytes) (trailing : Bytes)
    (he1 : EnvelopeOps ops1 pairs1 body1) (he2 : EnvelopeOps ops2 pairs2 body2) :
    runOps h i (op :: rest) c =
      RunRes.done (some ⟨⟨h, i⟩, none, none, false, c.creation_data, c.metadata⟩) ∧
    scan_output ⟨1, Script.wellFormed (ops1 ++ ops2) trailing⟩ h i =
      some (specRecord h i pairs1 body1) := by
  constructor
  · obtain ⟨s, cd, md, key⟩ := c
    simp only at hs
    subst hs
    rw [runOps]
    simp [step, he]
  · have hrun := runOps_envelope h i he1 BMap.empty BMap.empty 0 ops2
    simp [scan_output, Script.decode, scanOps, Cfg.init, hrun]

/-- Witness for C6 with two concrete envelopes carrying different
bodies. -/
theorem got_body_endif_stops_witness :
    runOps 4 1 [opEndIf, opFalse] ⟨State.GotBody, ⟨[(1, [5])]⟩, ⟨[(0, [6])]⟩, 0⟩ =
      RunRes.done (some ⟨⟨4, 1⟩, none, none, false, ⟨[(1, [5])]⟩, ⟨[(0, [6])]⟩⟩) ∧
    scan_output ⟨1, Script.wellFormed (envelopeOps [] [1] ++ envelopeOps [] [2]) []⟩ 4 1 =
      some (specRecord 4 1 [] [1]) :=
  got_body_endif_stops 4 1 ⟨State.GotBody, ⟨[(1, [5])]⟩, ⟨[(0, [6])]⟩, 0⟩ opEndIf
    [opFalse] rfl (by decide) (envelopeOps [] [1]) (envelopeOps [] [2]) [] [] [1] [2] []
    (EnvelopeOps.mk (by decide) (by decide) (by decide) PairOps.nil
      ⟨by decide, by decide⟩ ⟨by decide, by decide⟩ (by decide))
    (EnvelopeOps.mk (by decide) (by decide) (by decide) PairOps.nil
      ⟨by decide, by decide⟩ ⟨by decide, by decide⟩ (by decide))

/-- Claim C7: a prefix of failed envelope attempts that leaves the
machine in the Initial state — with whatever partial data its field maps
and pending key accumulated — followed by a well-formed envelope yields
exactly that envelope's record: the maps are cleared at the magic-string
match, so no data from the failed attempts leaks into the result. -/
theorem failed_attempts_then_envelope (h : TxHash) (i : Nat)
    (junk : List Operation) (c m : BMap) (k : Int)
    (ops : List Operation) (pairs : List (Int × Bytes)) (body : Bytes)
    (trailing : Bytes) (he : EnvelopeOps ops pairs body)
    (hj : runOps h i junk Cfg.init = RunRes.more ⟨State.Initial, c, m, k⟩) :
    scan_output ⟨1, Script.wellFormed (junk ++ ops) trailing⟩ h i =
      some (specRecord h i pairs body) := by
  have hrun := runOps_envelope h i he c m k []
  rw [List.append_nil] at hrun
  have happ := runOps_append h i junk ops Cfg.init
  rw [hj] at happ
  simp only at happ
  simp [scan_output, Script.decode, scanOps, happ, hrun]

/-- Witness for C7: a failed attempt that leaves a leaked entry in the
metadata map and pending key 2, followed by a clean envelope. -/
theorem failed_attempts_then_envelope_witness :
    scan_output ⟨1, Script.wellFormed
      ([opFalse, opIf, opPush ordMagic, opNum 2, opPush [9], opEndIf] ++
        envelopeOps [(3, [7])] [8]) []⟩ 6 0 =
      some (specRecord 6 0 [(3, [7])] [8]) :=
  failed_attempts_then_envelope 6 0
    [opFalse, opIf, opPush ordMagic, opNum 2, opPush [9], opEndIf]
    BMap.empty ⟨[(2, [9])]⟩ 2 (envelopeOps [(3, [7])] [8]) [(3, [7])] [8] []
    (EnvelopeOps.mk (by decide) (by decide) (by decide)
      (PairOps.cons ⟨by decide, by decide⟩ ⟨by decide, by decide⟩ (by decide) PairOps.nil)
      ⟨by decide, by decide⟩ ⟨by decide, by decide⟩ (by decide))
    (by decide)

/-- The mismatch conditions under which each non-Initial state of the
scanner resets: no if after the logical-false, a missing, wrongly sized
or wrong-content push after the if, a missing key inside the envelope, a
non-push where a value is due, a missing endif after the body.  Each arm
transcribes the guard of the corresponding reset branch of the loop. -/
def ResetTrigger (c : Cfg) (op : Operation) : Prop :=
  match c.state with
  | State.Initial => False
  | State.OpFalseSeen => op.is_op_if = false
  | State.OpIfSeen =>
    match op.data_pushed with
    | none => True
    | some d => d.length ≠ 3 ∨ d ≠ ordMagic
  | State.InEnvelope => op.is_data_push = false ∨ op.small_num_pushed = none
  | State.GotKey => op.is_data_push = false
  | State.GotBody => op.is_op_endif = false

/-- Claim C8: on every reset-to-Initial transition, from whichever state,
the triggering operation is consumed — the locals keep their maps and key
and the state becomes Initial, never OpFalseSeen, even when the operation
is itself a logical-false alias; conversely every continuing step out of
a non-Initial state that lands in Initial is one of these resets.
Consequently the script false, false, if, ord, key-0, value, endif yields
no record: the envelope starting at the second logical-false is missed. -/
theorem reset_consumes_operation (h : TxHash) (i : Nat) (c : Cfg)
    (op : Operation) (v : Bytes) (hreset : ResetTrigger c op) :
    step h i c op = StepRes.cont { c with state := State.Initial } ∧
    (∀ (c2 : Cfg) (op2 : Operation) (c3 : Cfg), c2.state ≠ State.Initial →
      step h i c2 op2 = StepRes.cont c3 → c3.state = State.Initial →
      ResetTrigger c2 op2) ∧
    scan_output ⟨1, Script.wellFormed
      [opFalse, opFalse, opIf, opPush ordMagic, opNum 0, opPush v, opEndIf] []⟩ h i =
      none := by
  refine ⟨?_, ?_, rfl⟩
  · obtain ⟨s, cd, md, key⟩ := c
    cases s with
    | Initial => exact hreset.elim
    | OpFalseSeen =>
      simp only [ResetTrigger] at hreset
      simp [step, hreset]
    | OpIfSeen =>
      simp only [ResetTrigger] at hreset
      cases hdp : op.data_pushed with
      | none => simp [step, hdp]
      | some d =>
        rw [hdp] at hreset
        rcases hreset with hlen | hd
        · simp [step, hdp, hlen]
        · by_cases hlen : d.length ≠ 3
          · simp [step, hdp, hlen]
          · simp [step, hdp, hlen, hd]
    | InEnvelope =>
      simp only [ResetTrigger] at hreset
      rcases hreset with hip | hsn
      · simp [step, hip]
      · by_cases hip : op.is_data_push = true
        · simp [step, hip, hsn]
        · simp [step, Bool.eq_false_iff.mpr hip]
    | GotKey =>
      simp only [ResetTrigger] at hreset
      simp [step, hreset]
    | GotBody =>
      simp only [ResetTrigger] at hreset
      simp [step, hreset]
  · intro c2 op2 c3 hne hstep hini
    obtain ⟨s2, cd2, md2, key2⟩ := c2
    cases s2 with
    | Initial => exact absurd rfl hne
    | OpFalseSeen =>
      by_cases hif : op2.is_op_if = true
      · simp only [step, hif, if_true] at hstep
        cases hstep
        exact absurd hini (by simp)
      · simp only [ResetTrigger]
        exact Bool.eq_false_iff.mpr hif
    | OpIfSeen =>
      simp only [ResetTrigger]
      cases hdp : op2.data_pushed with
      | none => trivial
      | some d =>
        by_cases hlen : d.length ≠ 3
        · exact Or.inl hlen
        · by_cases hd : d = ordMagic
          · simp only [step, hdp, if_neg hlen, if_pos hd] at hstep
            cases hstep
            exact absurd hini (by simp)
          · exact Or.inr hd
    | InEnvelope =>
      simp only [ResetTrigger]
      by_cases hip : op2.is_data_push = true
      · cases hsn : op2.small_num_pushed with
        | none => exact Or.inr rfl
        | some k1 =>
          simp only [step, hip, if_true, hsn] at hstep
          cases hstep
          exact absurd hini (by simp)
      · exact Or.inl (Bool.eq_false_iff.mpr hip)
    | GotKey =>
      simp only [ResetTrigger]
      by_cases hip : op2.is_data_push = true
      · cases hdp : op2.data_pushed with
        | none =>
          simp only [step, hip, if_true, hdp] at hstep
          cases hstep
        | some d =>
          simp only [step, hip, if_true, hdp] at hstep
          by_cases hz : key2 = 0
          · rw [if_pos hz] at hstep
            cases hstep
            exact absurd hini (by simp)
          · rw [if_neg hz] at hstep
            cases hstep
            exact absurd hini (by simp)
      · exact Bool.eq_false_iff.mpr hip
    | GotBody =>
      simp only [ResetTrigger]
      by_cases hend : op2.is_op_endif = true
      · simp only [step, hend, if_true] at hstep
        cases hstep
      · exact Bool.eq_false_iff.mpr hend

/-- Witness for C8: OP_0 triggers resets from OpIfSeen (its empty push
fails the 3-byte check) and from GotBody (it is not an endif) — in both
the machine lands in Initial, never OpFalseSeen, with maps and key kept —
and the double-false script scans to none. -/
theorem reset_consumes_operation_witness :
    step 9 2 ⟨State.OpIfSeen, BMap.empty, ⟨[(2, [9])]⟩, 2⟩ opFalse =
      StepRes.cont ⟨State.Initial, BMap.empty, ⟨[(2, [9])]⟩, 2⟩ ∧
    step 9 2 ⟨State.GotBody, ⟨[(1, [4])]⟩, ⟨[(0, [5])]⟩, 0⟩ opFalse =
      StepRes.cont ⟨State.Initial, ⟨[(1, [4])]⟩, ⟨[(0, [5])]⟩, 0⟩ ∧
    step 9 2 ⟨State.OpFalseSeen, BMap.empty, BMap.empty, 0⟩ opFalse =
      StepRes.cont ⟨State.Initial, BMap.empty, BMap.empty, 0⟩ ∧
    scan_output ⟨1, Script.wellFormed
      [opFalse, opFalse, opIf, opPush ordMagic, opNum 0, opPush [7], opEndIf] []⟩ 9 2 =
      none :=
  ⟨(reset_consumes_operation 9 2 ⟨State.OpIfSeen, BMap.empty, ⟨[(2, [9])]⟩, 2⟩
      opFalse [7] (by simp [ResetTrigger, opFalse])).1,
   (reset_consumes_operation 9 2 ⟨State.GotBody, ⟨[(1, [4])]⟩, ⟨[(0, [5])]⟩, 0⟩
      opFalse [7] (by simp [ResetTrigger, opFalse])).1,
   (reset_consumes_operation 9 2 ⟨State.OpFalseSeen, BMap.empty, BMap.empty, 0⟩
      opFalse [7] (by simp [ResetTrigger, opFalse])).1,
   (reset_consumes_operation 9 2 ⟨State.OpFalseSeen, BMap.empty, BMap.empty, 0⟩
      opFalse [7] (by simp [ResetTrigger, opFalse])).2.2⟩

/-- Counterexample to claim C9: an accepted envelope can consume the same
key twice.  The script false, if, ord, key 2, value, key 2, value, key 0,
body, endif yields a record, its consumed-pair trace holds key 2 twice,
and the later value overwrote the earlier one in the metadata map. -/
theorem duplicate_keys_counterexample :
    scanOpsT 0 0 (envelopeOps [(2, [1]), (2, [2])] [3]) =
      some (⟨⟨0, 0⟩, none, none, false, ⟨[]⟩, ⟨[(0, [3]), (2, [2])]⟩⟩,
        [(2, [1]), (2, [2]), (0, [3])]) ∧
    scan_output ⟨1, Script.wellFormed (envelopeOps [(2, [1]), (2, [2])] [3]) []⟩ 0 0 =
      some ⟨⟨0, 0⟩, none, none, false, ⟨[]⟩, ⟨[(0, [3]), (2, [2])]⟩⟩ ∧
    ¬ (([(2, [1]), (2, [2]), (0, [3])] : List (Int × Bytes)).map Prod.fst).Nodup :=
  ⟨by decide, by decide, by decide⟩

/-- Claim C9 as amended: within one accepted envelope a nonzero key may be
consumed several times, the later value overwriting the earlier one — the
field maps are exactly the parity-routed left fold of the consumed pairs —
while key 0 is consumed exactly once, as the final pair. -/
theorem consumed_pairs_structure (h : TxHash) (i : Nat) (ops : List Operation)
    (trailing : Bytes) (r : OrdinalInscription) (tr : List (Int × Bytes))
    (hr : scanOpsT h i ops = some (r, tr)) :
    scan_output ⟨1, Script.wellFormed ops trailing⟩ h i = some r ∧
    r.creation_data = foldOdd BMap.empty tr ∧
    r.metadata = foldEven BMap.empty tr ∧
    ∃ tr0 d0, tr = tr0 ++ [(0, d0)] ∧ 0 ∉ tr0.map Prod.fst := by
  have hscan := scanOps_of_scanOpsT hr
  exact ⟨by simp [scan_output, Script.decode, hscan], scanOpsT_some_inv hr⟩

/-- Witness for the amended C9 on the duplicate-key envelope itself. -/
theorem consumed_pairs_structure_witness :
    scan_output ⟨1, Script.wellFormed (envelopeOps [(2, [1]), (2, [2])] [3]) []⟩ 1 2 =
      some ⟨⟨1, 2⟩, none, none, false, ⟨[]⟩, ⟨[(0, [3]), (2, [2])]⟩⟩ ∧
    (⟨⟨1, 2⟩, none, none, false, ⟨[]⟩, ⟨[(0, [3]), (2, [2])]⟩⟩ :
        OrdinalInscription).creation_data =
      foldOdd BMap.empty [(2, [1]), (2, [2]), (0, [3])] ∧
    (⟨⟨1, 2⟩, none, none, false, ⟨[]⟩, ⟨[(0, [3]), (2, [2])]⟩⟩ :
        OrdinalInscription).metadata =
      foldEven BMap.empty [(2, [1]), (2, [2]), (0, [3])] ∧
    ∃ tr0 d0, ([(2, [1]), (2, [2]), (0, [3])] : List (Int × Bytes)) =
      tr0 ++ [(0, d0)] ∧ 0 ∉ tr0.map Prod.fst :=
  consumed_pairs_structure 1 2 (envelopeOps [(2, [1]), (2, [2])] [3]) []
    ⟨⟨1, 2⟩, none, none, false, ⟨[]⟩, ⟨[(0, [3]), (2, [2])]⟩⟩
    [(2, [1]), (2, [2]), (0, [3])] (by decide)

/-- Claim C10: in state GotKey, an operation that passes the data-push
test but yields no byte payload makes scan_output return none for the
whole output at once: the remaining operations are abandoned instead of
the machine resetting to Initial. -/
theorem got_key_bare_push_aborts (h : TxHash) (i : Nat) (c : Cfg)
    (op : Operation) (rest pre : List Operation) (trailing : Bytes)
    (hs : c.state = State.GotKey) (h1 : op.is_data_push = true)
    (h2 : op.data_pushed = none)
    (hpre : runOps h i pre Cfg.init = RunRes.more c) :
    runOps h i (op :: rest) c = RunRes.done none ∧
    scan_output ⟨1, Script.wellFormed (pre ++ op :: rest) trailing⟩ h i = none := by
  have hstep : step h i c op = StepRes.abort := by
    obtain ⟨s, cd, md, key⟩ := c
    simp only at hs
    subst hs
    simp [step, h1, h2]
  have hloop : runOps h i (op :: rest) c = RunRes.done none := by
    rw [runOps, hstep]
  refine ⟨hloop, ?_⟩
  have happ := runOps_append h i pre (op :: rest) Cfg.init
  rw [hpre] at happ
  simp only at happ
  rw [hloop] at happ
  simp [scan_output, Script.decode, scanOps, happ]

/-- Witness for C10: key 1 read, then a payloadless push; the would-be
completion of the envelope that follows is abandoned. -/
theorem got_key_bare_push_aborts_witness :
    runOps 3 0 (opNumBare 5 :: [opPush [7], opNum 0, opPush [2], opEndIf])
      ⟨State.GotKey, BMap.empty, BMap.empty, 1⟩ = RunRes.done none ∧
    scan_output ⟨1, Script.wellFormed
      ([opFalse, opIf, opPush ordMagic, opNum 1] ++
        opNumBare 5 :: [opPush [7], opNum 0, opPush [2], opEndIf]) []⟩ 3 0 = none :=
  got_key_bare_push_aborts 3 0 ⟨State.GotKey, BMap.empty, BMap.empty, 1⟩
    (opNumBare 5) [opPush [7], opNum 0, opPush [2], opEndIf]
    [opFalse, opIf, opPush ordMagic, opNum 1] [] rfl (by decide) (by decide)
    (by decide)

end OneSat
